import Mathlib

/-!
Shallow embedding of the MoE fire-detection fusion pipeline
(`src/Project_Files/Mixture_Of_Experts/MOE_TTA.ipynb`): the single-view
Mixture-of-Experts inference `run_moe` (gate-weight confidence scaling,
thresholding, greedy NMS) and the test-time-augmentation fusion
`run_moe_with_tta` (per-view collection, coordinate normalization,
Weighted Box Fusion, de-normalization).

Real-valued quantities (box coordinates, confidences, gate weights) are
modelled as rationals; class labels as integers.
-/

namespace MoE

/-- An axis-aligned bounding box `(x1, y1, x2, y2)`, as in the rows of
`result.boxes.xyxy`. -/
structure Box where
  x1 : ℚ
  y1 : ℚ
  x2 : ℚ
  y2 : ℚ
deriving DecidableEq, Repr

/-- One detection: box, confidence score, class label
(a row `[x1, y1, x2, y2, conf, cls]` of the combined tensor in `run_moe`). -/
structure Detection where
  box : Box
  conf : ℚ
  cls : ℤ
deriving DecidableEq, Repr

/-- A raw (unweighted) detection as returned by one expert model. -/
structure RawDet where
  box : Box
  conf : ℚ
  cls : ℤ
deriving DecidableEq, Repr

/-- Intersection area of two boxes, clamped at zero, as computed by
`torchvision.ops.box_iou`. -/
def interArea (a b : Box) : ℚ :=
  max 0 (min a.x2 b.x2 - max a.x1 b.x1) * max 0 (min a.y2 b.y2 - max a.y1 b.y1)

/-- Area of a box. -/
def area (a : Box) : ℚ :=
  (a.x2 - a.x1) * (a.y2 - a.y1)

/-- Intersection over union of two boxes (`torchvision.ops.box_iou`);
a zero union is mapped to 0. -/
def iou (a b : Box) : ℚ :=
  let i := interArea a b
  let u := area a + area b - i
  if u = 0 then 0 else i / u

/-- The descending-confidence order used to sort the pool inside
`torchvision.ops.nms`: `d` comes before `e` when `e.conf ≤ d.conf`
(stable on ties, keeping submission order). -/
def confGE (d e : Detection) : Prop :=
  e.conf ≤ d.conf

instance : DecidableRel confGE := fun d e => inferInstanceAs (Decidable (e.conf ≤ d.conf))

instance : IsTotal Detection confGE := ⟨fun d e => le_total e.conf d.conf⟩

instance : IsTrans Detection confGE := ⟨fun _ _ _ h h' => le_trans h' h⟩

/-- `true` when detection `e` survives suppression by the kept detection `d`
at IoU threshold `t` (`torchvision.ops.nms` discards exactly the boxes whose
IoU with the kept box is strictly greater than the threshold). -/
def survB (t : ℚ) (d e : Detection) : Bool :=
  decide (iou d.box e.box ≤ t)

/-- Greedy suppression loop of `torchvision.ops.nms` over an
already-sorted pool, with explicit fuel (the fuel is always at least the
pool length when called through `nms`, so it never runs out). -/
def nmsGo (t : ℚ) : ℕ → List Detection → List Detection
  | _, [] => []
  | 0, _ :: _ => []
  | n + 1, d :: rest => d :: nmsGo t n (rest.filter (survB t d))

/-- `torchvision.ops.nms`: sort the pool by confidence descending, then
greedily keep the top detection and discard every remaining detection whose
IoU with it exceeds `t`. -/
def nms (t : ℚ) (pool : List Detection) : List Detection :=
  nmsGo t pool.length (List.insertionSort confGE pool)

/-- Scale one raw detection's confidence by the expert's gate weight
(`conf = result.boxes.conf * weight` in `run_moe`). -/
def scale (w : ℚ) (d : RawDet) : Detection :=
  ⟨d.box, d.conf * w, d.cls⟩

/-- One expert's contribution inside `run_moe`: scale confidences by the
gate weight `w`, then keep exactly the detections whose scaled confidence is
strictly greater than `tconf` (`keep_mask = conf > conf_threshold`). -/
def scaleFilter (w tconf : ℚ) (dets : List RawDet) : List Detection :=
  (dets.map (scale w)).filter (fun d => decide (tconf < d.conf))

/-- The merged pool of `run_moe`: the concatenation, in expert order, of
every expert's surviving rescaled detections (`torch.cat(all_boxes_raw)`).
Expert `i` is paired with gate weight `w[i]`. -/
def survivors (weights : List ℚ) (experts : List (List RawDet)) (tconf : ℚ) :
    List Detection :=
  ((weights.zip experts).map (fun p => scaleFilter p.1 tconf p.2)).flatten

/-- Single-view MoE inference `run_moe` (for a well-configured call, gate
weight `i` paired with expert `i`): build the thresholded pool; if it is
empty return the empty list, otherwise apply NMS at `tiou`. -/
def run_moe (weights : List ℚ) (experts : List (List RawDet)) (tconf tiou : ℚ) :
    List Detection :=
  let pool := survivors weights experts tconf
  if pool.isEmpty then [] else nms tiou pool

/-- The runtime error the Python `run_moe` can actually raise: indexing
`gate_weights[i]` out of range. -/
inductive PyErr where
  | indexError
deriving DecidableEq, Repr

/-- The expert loop of `run_moe` with Python's indexing semantics: the loop
runs over the experts and looks up `gate_weights[i]`; when the weight vector
is exhausted before the experts are, an `IndexError` is raised. -/
def collectWeighted (tconf : ℚ) :
    List ℚ → List (List RawDet) → Except PyErr (List Detection)
  | _, [] => .ok []
  | [], _ :: _ => .error .indexError
  | w :: ws, dets :: rest =>
    match collectWeighted tconf ws rest with
    | .error e => .error e
    | .ok restPool => .ok (scaleFilter w tconf dets ++ restPool)

/-- `run_moe` with its fallible Python semantics: any `IndexError` from the
expert loop propagates before fusion; otherwise the pool is thresholded and
fused exactly as in `run_moe`. -/
def run_moe_exc (weights : List ℚ) (experts : List (List RawDet)) (tconf tiou : ℚ) :
    Except PyErr (List Detection) :=
  match collectWeighted tconf weights experts with
  | .error e => .error e
  | .ok pool => .ok (if pool.isEmpty then [] else nms tiou pool)

/-- Normalize a detection's box into the unit square for WBF, as in
`run_moe_with_tta`: x-coordinates are divided by the image width `W`,
y-coordinates by the image height `H` (`norm_boxes[:, [0,2]] /= img_w`,
`norm_boxes[:, [1,3]] /= img_h`). -/
def normalizeDet (W H : ℚ) (d : Detection) : Detection :=
  ⟨⟨d.box.x1 / W, d.box.y1 / H, d.box.x2 / W, d.box.y2 / H⟩, d.conf, d.cls⟩

/-- Rescale a fused detection back to pixel space, as in `run_moe_with_tta`
(`boxes_list[:, [0,2]] *= img_w`, `boxes_list[:, [1,3]] *= img_h`). -/
def denormalizeDet (W H : ℚ) (d : Detection) : Detection :=
  ⟨⟨d.box.x1 * W, d.box.y1 * H, d.box.x2 * W, d.box.y2 * H⟩, d.conf, d.cls⟩

/-- Confidence-weighted average box of a cluster's members: each coordinate
is `Σ confⱼ·coordⱼ / Σ confⱼ` (0 when the total confidence is 0). -/
def wavgBox (mems : List Detection) : Box :=
  let s := (mems.map (·.conf)).sum
  if s = 0 then ⟨0, 0, 0, 0⟩
  else
    ⟨((mems.map (fun d => d.conf * d.box.x1)).sum) / s,
     ((mems.map (fun d => d.conf * d.box.y1)).sum) / s,
     ((mems.map (fun d => d.conf * d.box.x2)).sum) / s,
     ((mems.map (fun d => d.conf * d.box.y2)).sum) / s⟩

/-- Modelled from the spec: the fused confidence that Weighted Box Fusion
(the external `ensemble_boxes.weighted_boxes_fusion`, absent from the
repository sources) assigns to a cluster —
`mean(confidences) * min(cluster_size, num_views) / num_views`. -/
def fusedConf (mems : List Detection) (numViews : ℕ) : ℚ :=
  if mems.length = 0 ∨ numViews = 0 then 0
  else ((mems.map (·.conf)).sum / mems.length) * (min mems.length numViews : ℕ) / numViews

/-- The class label a cluster carries (all members share it by
construction); 0 for the impossible empty cluster. -/
def clusterLabel (mems : List Detection) : ℤ :=
  ((mems.head?).map (·.cls)).getD 0

/-- Modelled from the spec: incremental clustering of Weighted Box Fusion —
scan the existing clusters for the best-matching one (same label, highest
IoU of the new detection against the cluster's current representative box);
record its index and that IoU. -/
def bestCluster (d : Detection) : List (List Detection) → Option (ℕ × ℚ)
  | [] => none
  | c :: cs =>
    let rest := (bestCluster d cs).map (fun p => (p.1 + 1, p.2))
    if clusterLabel c = d.cls then
      let s := iou (wavgBox c) d.box
      match rest with
      | none => some (0, s)
      | some (j, s') => if s' > s then some (j, s') else some (0, s)
    else rest

/-- Replace the cluster at index `i` by itself extended with `d`. -/
def addAt (d : Detection) : ℕ → List (List Detection) → List (List Detection)
  | _, [] => []
  | 0, c :: cs => (c ++ [d]) :: cs
  | i + 1, c :: cs => c :: addAt d i cs

/-- Modelled from the spec: one clustering step of Weighted Box Fusion — the
new detection joins the best-matching existing cluster if its IoU against
that cluster's representative box exceeds `tiou`, else it starts a new
cluster. -/
def addToClusters (tiou : ℚ) (cs : List (List Detection)) (d : Detection) :
    List (List Detection) :=
  match bestCluster d cs with
  | some (i, s) => if s > tiou then addAt d i cs else cs ++ [[d]]
  | none => cs ++ [[d]]

/-- Modelled from the spec: `ensemble_boxes.weighted_boxes_fusion` (absent
from the repository sources) — cluster the detections of all contributing
views incrementally by label and IoU, give each cluster its
confidence-weighted average box and its fused confidence scaled by
`min(cluster_size, num_views) / num_views`, and discard clusters whose fused
confidence is not strictly greater than the skip threshold `tconf`. -/
def wbf (views : List (List Detection)) (tiou tconf : ℚ) : List Detection :=
  let numViews := views.length
  let clusters := views.flatten.foldl (addToClusters tiou) []
  (clusters.map (fun c => (⟨wavgBox c, fusedConf c numViews, clusterLabel c⟩ : Detection))).filter
    (fun d => decide (tconf < d.conf))

/-- TTA inference `run_moe_with_tta`, parametrized by the per-view outputs
of `run_moe` (the views are produced by fixed size-preserving augmentations
of the source image, whose pixel content the fusion core never inspects):
skip empty views, normalize the rest into the unit square, return the empty
list if nothing was collected, otherwise fuse with WBF and rescale back to
pixel space. -/
def run_moe_with_tta (W H : ℚ) (viewDets : List (List Detection)) (tconf tiou : ℚ) :
    List Detection :=
  let collected := (viewDets.filter (fun v => !v.isEmpty)).map (·.map (normalizeDet W H))
  if collected.isEmpty then []
  else (wbf collected tiou tconf).map (denormalizeDet W H)

/-- Rewrite a detection's class label (used to state that NMS never inspects
labels). -/
def relabel (f : ℤ → ℤ) (d : Detection) : Detection :=
  ⟨d.box, d.conf, f d.cls⟩

/-! ### Lemmas about the greedy NMS loop -/

/-- The suppression loop does not depend on the fuel once the fuel covers
the pool length. -/
theorem nmsGo_fuel (t : ℚ) :
    ∀ (n : ℕ) (l : List Detection), l.length ≤ n → nmsGo t n l = nmsGo t l.length l := by
  intro n
  induction n using Nat.strong_induction_on with
  | _ n ih =>
    intro l hl
    match n, l with
    | _, [] => cases hl <;> rfl
    | 0, d :: rest => exact absurd hl (by simp)
    | n + 1, d :: rest =>
      have hr : rest.length ≤ n := by simpa using hl
      have hf : (rest.filter (survB t d)).length ≤ rest.length :=
        List.length_filter_le _ _
      calc nmsGo t (n + 1) (d :: rest)
          = d :: nmsGo t n (rest.filter (survB t d)) := rfl
        _ = d :: nmsGo t (rest.filter (survB t d)).length (rest.filter (survB t d)) := by
            rw [ih n (Nat.lt_succ_self n) _ (le_trans hf hr)]
        _ = d :: nmsGo t rest.length (rest.filter (survB t d)) := by
            rw [ih rest.length (Nat.lt_succ_of_le hr) _ hf]
        _ = nmsGo t (d :: rest).length (d :: rest) := rfl

/-- The suppression loop with exactly enough fuel (the form `nms` takes
after sorting). -/
def nmsS (t : ℚ) (l : List Detection) : List Detection :=
  nmsGo t l.length l

theorem nmsS_nil (t : ℚ) : nmsS t [] = [] := rfl

/-- Defining equation of the greedy loop: keep the head, recurse on the
remaining detections that survive it. -/
theorem nmsS_cons (t : ℚ) (d : Detection) (rest : List Detection) :
    nmsS t (d :: rest) = d :: nmsS t (rest.filter (survB t d)) := by
  show d :: nmsGo t rest.length (rest.filter (survB t d)) = _
  rw [nmsGo_fuel t rest.length _ (List.length_filter_le _ _)]
  rfl

/-- `nms` is the fueled loop run on the sorted pool. -/
theorem nms_eq_nmsS (t : ℚ) (l : List Detection) :
    nms t l = nmsS t (List.insertionSort confGE l) := by
  show nmsGo t l.length _ = nmsGo t (List.insertionSort confGE l).length _
  rw [List.length_insertionSort]

/-- NMS output is a sublist of its (sorted) input pool. -/
theorem nmsS_sublist (t : ℚ) : ∀ l : List Detection, List.Sublist (nmsS t l) l
  | [] => by simp [nmsS_nil]
  | d :: rest => by
    rw [nmsS_cons]
    exact ((nmsS_sublist t (rest.filter (survB t d))).trans
      (List.filter_sublist rest)).cons₂ d
  termination_by l => l.length
  decreasing_by
    simpa using Nat.lt_succ_of_le (List.length_filter_le _ _)

/-- Any two detections kept by NMS (in output order) fail to suppress each
other: the IoU of an earlier kept box with a later one is at most `t`. -/
theorem nmsS_pairwise (t : ℚ) :
    ∀ l : List Detection, (nmsS t l).Pairwise (fun d e => iou d.box e.box ≤ t)
  | [] => by simp [nmsS_nil]
  | d :: rest => by
    rw [nmsS_cons]
    refine List.Pairwise.cons ?_ (nmsS_pairwise t (rest.filter (survB t d)))
    intro e he
    have : e ∈ rest.filter (survB t d) :=
      (nmsS_sublist t (rest.filter (survB t d))).mem he
    have := (List.mem_filter.mp this).2
    simpa [survB] using this
  termination_by l => l.length
  decreasing_by
    simpa using Nat.lt_succ_of_le (List.length_filter_le _ _)

/-- A pool in which no detection suppresses a later one passes through the
greedy loop unchanged. -/
theorem nmsS_of_pairwise (t : ℚ) :
    ∀ l : List Detection, l.Pairwise (fun d e => iou d.box e.box ≤ t) → nmsS t l = l := by
  intro l
  induction l with
  | nil => intro _; rfl
  | cons d rest ih =>
    intro hp
    rw [nmsS_cons]
    have hall : ∀ e ∈ rest, survB t d e = true := by
      intro e he
      simpa [survB] using (List.pairwise_cons.mp hp).1 e he
    rw [List.filter_eq_self.mpr hall, ih (List.pairwise_cons.mp hp).2]

/-- NMS output is sorted by descending confidence. -/
theorem nms_sorted (t : ℚ) (l : List Detection) :
    (nms t l).Pairwise confGE := by
  rw [nms_eq_nmsS]
  exact (List.sorted_insertionSort confGE l).sublist
    (nmsS_sublist t (List.insertionSort confGE l))

/-- Idempotence of the full NMS pass (sort, then greedy loop). -/
theorem nms_idem (t : ℚ) (l : List Detection) : nms t (nms t l) = nms t l := by
  have hs : List.Sorted confGE (nms t l) := nms_sorted t l
  rw [nms_eq_nmsS t (nms t l), hs.insertionSort_eq]
  rw [nms_eq_nmsS t l]
  exact nmsS_of_pairwise t _ (nmsS_pairwise t _)

/-- On a nonempty pool, NMS keeps a detection of maximal confidence: the
head of the sorted pool is in the output and dominates every pool member. -/
theorem nms_keeps_top (t : ℚ) (l : List Detection) (hl : l ≠ []) :
    ∃ d ∈ nms t l, d ∈ l ∧ ∀ e ∈ l, e.conf ≤ d.conf := by
  have hperm : List.Perm (List.insertionSort confGE l) l := List.perm_insertionSort confGE l
  have hne : List.insertionSort confGE l ≠ [] := by
    intro h
    apply hl
    have := congrArg List.length h
    rw [List.length_insertionSort] at this
    exact List.length_eq_zero.mp this
  obtain ⟨d, tl, hcons⟩ := List.exists_cons_of_ne_nil hne
  refine ⟨d, ?_, ?_, ?_⟩
  · rw [nms_eq_nmsS, hcons, nmsS_cons]
    exact List.mem_cons_self d _
  · exact hperm.mem_iff.mp (hcons ▸ List.mem_cons_self d tl)
  · intro e he
    have : e ∈ List.insertionSort confGE l := hperm.mem_iff.mpr he
    rw [hcons] at this
    rcases List.mem_cons.mp this with h | h
    · exact h ▸ le_refl _
    · have hsorted := List.sorted_insertionSort confGE l
      rw [hcons] at hsorted
      exact (List.pairwise_cons.mp hsorted).1 e h

/-- NMS of a nonempty pool is nonempty. -/
theorem nms_ne_nil (t : ℚ) (l : List Detection) (hl : l ≠ []) : nms t l ≠ [] := by
  obtain ⟨d, hd, -, -⟩ := nms_keeps_top t l hl
  intro h
  rw [h] at hd
  exact List.not_mem_nil d hd

/-! ### Label-equivariance of NMS -/

theorem orderedInsert_relabel (f : ℤ → ℤ) (d : Detection) :
    ∀ l : List Detection,
      List.orderedInsert confGE (relabel f d) (l.map (relabel f)) =
        (List.orderedInsert confGE d l).map (relabel f)
  | [] => rfl
  | e :: l => by
    simp only [List.map_cons, List.orderedInsert]
    by_cases h : confGE d e
    · rw [if_pos h, if_pos (show confGE (relabel f d) (relabel f e) from h)]
      simp
    · rw [if_neg h, if_neg (show ¬confGE (relabel f d) (relabel f e) from h),
        orderedInsert_relabel f d l]
      simp

theorem insertionSort_relabel (f : ℤ → ℤ) :
    ∀ l : List Detection,
      List.insertionSort confGE (l.map (relabel f)) =
        (List.insertionSort confGE l).map (relabel f)
  | [] => rfl
  | d :: l => by
    simp only [List.map_cons, List.insertionSort]
    rw [insertionSort_relabel f l, orderedInsert_relabel]

theorem filter_survB_relabel (t : ℚ) (f : ℤ → ℤ) (d : Detection) (l : List Detection) :
    (l.map (relabel f)).filter (survB t (relabel f d)) =
      (l.filter (survB t d)).map (relabel f) := by
  rw [List.filter_map]
  congr 1

theorem nmsGo_relabel (t : ℚ) (f : ℤ → ℤ) :
    ∀ (n : ℕ) (l : List Detection),
      nmsGo t n (l.map (relabel f)) = (nmsGo t n l).map (relabel f)
  | n, [] => by cases n <;> rfl
  | 0, _ :: _ => rfl
  | n + 1, d :: rest => by
    simp only [List.map_cons, nmsGo]
    rw [filter_survB_relabel, nmsGo_relabel t f n]

theorem nms_relabel (t : ℚ) (f : ℤ → ℤ) (l : List Detection) :
    nms t (l.map (relabel f)) = (nms t l).map (relabel f) := by
  show nmsGo t (l.map (relabel f)).length _ = _
  rw [List.length_map, insertionSort_relabel, nmsGo_relabel]
  rfl

/-! ### Claim theorems -/

/-- C1: end-to-end single-view scenario — with gate weights `[0.8, 0.2]`,
expert 0 returning box `(10,10,50,50)` at confidence `0.9` label `0` and
expert 1 returning box `(12,12,48,48)` at confidence `0.95` label `0`,
`run_moe` at `t_conf = 0.3`, `t_iou = 0.1` scales the confidences to `0.72`
and `0.19`, drops expert 1's detection (`0.19 ≤ 0.3`), and returns exactly
one detection: box `(10,10,50,50)`, confidence `0.72`, label `0`. -/
theorem run_moe_end_to_end_scenario :
    run_moe [0.8, 0.2]
        [[⟨⟨10, 10, 50, 50⟩, 0.9, 0⟩], [⟨⟨12, 12, 48, 48⟩, 0.95, 0⟩]]
        0.3 0.1 =
      [⟨⟨10, 10, 50, 50⟩, 0.72, 0⟩] ∧
    scale 0.8 ⟨⟨10, 10, 50, 50⟩, 0.9, 0⟩ =
      (⟨⟨10, 10, 50, 50⟩, 0.72, 0⟩ : Detection) ∧
    scale 0.2 ⟨⟨12, 12, 48, 48⟩, 0.95, 0⟩ =
      (⟨⟨12, 12, 48, 48⟩, 0.19, 0⟩ : Detection) ∧
    ¬((0.3 : ℚ) < 0.19) := by
  refine ⟨?_, ?_, ?_, ?_⟩
  · with_unfolding_all rfl
  · with_unfolding_all rfl
  · with_unfolding_all rfl
  · norm_num

/-- C5: NMS is idempotent — applying the greedy suppression of `run_moe`
to its own output, at the same IoU threshold, returns that output
unchanged, for every detection pool and every threshold. -/
theorem nms_idempotent :
    ∀ (tiou : ℚ) (pool : List Detection), nms tiou (nms tiou pool) = nms tiou pool :=
  nms_idem

/-- C6 counterexample: NMS kept-count is not monotone in the IoU
threshold. On the four-detection pool below, raising `t_iou` from `0` to
`1/28` lets the second-ranked detection survive the top one, and it then
suppresses the two detections ranked below it: the kept count drops from 3
to 2 although `0 ≤ 1/28`. -/
theorem nms_count_not_monotone :
    (0 : ℚ) ≤ 1 / 28 ∧
    (nms 0
        [⟨⟨1, 8, 2, 10⟩, 0.4, 0⟩, ⟨⟨0, 3, 7, 11⟩, 0.3, 0⟩,
         ⟨⟨4, 6, 10, 13⟩, 0.2, 0⟩, ⟨⟨4, 1, 7, 5⟩, 0.1, 0⟩]).length = 3 ∧
    (nms (1 / 28)
        [⟨⟨1, 8, 2, 10⟩, 0.4, 0⟩, ⟨⟨0, 3, 7, 11⟩, 0.3, 0⟩,
         ⟨⟨4, 6, 10, 13⟩, 0.2, 0⟩, ⟨⟨4, 1, 7, 5⟩, 0.1, 0⟩]).length = 2 := by
  refine ⟨by norm_num, ?_, ?_⟩
  · with_unfolding_all rfl
  · with_unfolding_all rfl

/-- C6 (amended): each single suppression step of greedy NMS is monotone in
the IoU threshold — at a larger `t_iou` a kept detection suppresses a
subset of what it suppresses at a smaller one, so each step keeps at least
as many survivors ("fewer suppressions"); the total kept count over the
whole greedy cascade, however, is not monotone (see the counterexample). -/
theorem nms_suppression_step_monotone (t t' : ℚ) (d : Detection)
    (l : List Detection) (h : t ≤ t') :
    List.Sublist (l.filter (survB t d)) (l.filter (survB t' d)) ∧
      (l.filter (survB t d)).length ≤ (l.filter (survB t' d)).length := by
  have hsub : List.Sublist (l.filter (survB t d)) (l.filter (survB t' d)) := by
    apply List.monotone_filter_right
    intro e he
    simp only [survB, decide_eq_true_eq] at he ⊢
    exact le_trans he h
  exact ⟨hsub, hsub.length_le⟩

/-- C6 (amended) witness: a concrete suppression step at thresholds
`0 ≤ 1/28` on the counterexample pool's tail. -/
theorem nms_suppression_step_monotone_witness :
    (0 : ℚ) ≤ 1 / 28 ∧
      (List.Sublist
        ([⟨⟨0, 3, 7, 11⟩, 0.3, 0⟩, ⟨⟨4, 6, 10, 13⟩, 0.2, 0⟩].filter
          (survB 0 ⟨⟨1, 8, 2, 10⟩, 0.4, 0⟩))
        ([⟨⟨0, 3, 7, 11⟩, 0.3, 0⟩, ⟨⟨4, 6, 10, 13⟩, 0.2, 0⟩].filter
          (survB (1 / 28) ⟨⟨1, 8, 2, 10⟩, 0.4, 0⟩)) ∧
      ([⟨⟨0, 3, 7, 11⟩, 0.3, 0⟩, ⟨⟨4, 6, 10, 13⟩, 0.2, 0⟩].filter
          (survB 0 ⟨⟨1, 8, 2, 10⟩, 0.4, 0⟩)).length ≤
        ([⟨⟨0, 3, 7, 11⟩, 0.3, 0⟩, ⟨⟨4, 6, 10, 13⟩, 0.2, 0⟩].filter
          (survB (1 / 28) ⟨⟨1, 8, 2, 10⟩, 0.4, 0⟩)).length) :=
  ⟨by norm_num,
    nms_suppression_step_monotone 0 (1 / 28) ⟨⟨1, 8, 2, 10⟩, 0.4, 0⟩
      [⟨⟨0, 3, 7, 11⟩, 0.3, 0⟩, ⟨⟨4, 6, 10, 13⟩, 0.2, 0⟩] (by norm_num)⟩

/-- C7: NMS in `run_moe` is class-agnostic — rewriting every class label by
an arbitrary function commutes with NMS (suppression never inspects
labels), and concretely a kept detection suppresses an overlapping
detection of a different class: two identical boxes with labels `0` and `1`
at IoU `1 > 1/2` collapse to the higher-confidence one. -/
theorem nms_class_agnostic :
    (∀ (f : ℤ → ℤ) (t : ℚ) (l : List Detection),
        nms t (l.map (relabel f)) = (nms t l).map (relabel f)) ∧
    nms (1 / 2) [⟨⟨0, 0, 10, 10⟩, 0.9, 0⟩, ⟨⟨0, 0, 10, 10⟩, 0.8, 1⟩] =
      [⟨⟨0, 0, 10, 10⟩, 0.9, 0⟩] := by
  refine ⟨fun f t l => nms_relabel t f l, ?_⟩
  with_unfolding_all rfl

/-- C2: in `run_moe`, a detection is in the merged pool exactly when it is
the gate-weight-rescaled copy of some expert's raw detection whose
confidence times that expert's weight is strictly greater than `t_conf`;
and (for a non-negative threshold, as in every actual call) an expert whose
gate weight is `0` contributes nothing, regardless of raw confidences. -/
theorem survivors_mem_iff :
    ∀ (w : List ℚ) (exps : List (List RawDet)) (tconf : ℚ) (e : Detection),
      (e ∈ survivors w exps tconf ↔
        ∃ p ∈ w.zip exps, ∃ d ∈ p.2, e = scale p.1 d ∧ tconf < d.conf * p.1) ∧
      (0 ≤ tconf → ∀ dets : List RawDet, scaleFilter 0 tconf dets = []) := by
  intro w exps tconf e
  constructor
  · simp only [survivors, scaleFilter, List.mem_flatten, List.mem_map,
      List.mem_filter, decide_eq_true_eq]
    constructor
    · rintro ⟨l, ⟨p, hp, rfl⟩, hmem⟩
      obtain ⟨hmap, hconf⟩ := List.mem_filter.mp hmem
      obtain ⟨d, hd, hde⟩ := List.mem_map.mp hmap
      subst hde
      exact ⟨p, hp, d, hd, rfl, by simpa [scale] using hconf⟩
    · rintro ⟨p, hp, d, hd, rfl, hconf⟩
      refine ⟨(p.2.map (scale p.1)).filter (fun d => decide (tconf < d.conf)),
        ⟨p, hp, rfl⟩, ?_⟩
      exact List.mem_filter.mpr ⟨List.mem_map_of_mem _ hd, by simpa [scale] using hconf⟩
  · intro htc dets
    rw [scaleFilter, List.filter_eq_nil_iff]
    rintro x hx
    obtain ⟨d, -, rfl⟩ := List.mem_map.mp hx
    simp only [scale, decide_eq_true_eq, not_lt]
    simpa using htc

/-- C2 witness: the membership criterion and the zero-weight clause at
concrete inputs — with weight `0` and threshold `0.3`, a raw detection of
confidence `1` does not survive. -/
theorem survivors_mem_iff_witness :
    (0 : ℚ) ≤ 0.3 ∧ scaleFilter 0 0.3 [⟨⟨0, 0, 10, 10⟩, 1, 0⟩] = [] :=
  ⟨by norm_num,
    (survivors_mem_iff [0] [[⟨⟨0, 0, 10, 10⟩, 1, 0⟩]] 0.3
      ⟨⟨0, 0, 10, 10⟩, 0, 0⟩).2 (by norm_num) [⟨⟨0, 0, 10, 10⟩, 1, 0⟩]⟩

/-- Helper: the fallible expert loop agrees with the pure zipped pool when
the gate-weight vector covers every expert. -/
theorem collectWeighted_ok (tconf : ℚ) :
    ∀ (exps : List (List RawDet)) (w : List ℚ), exps.length ≤ w.length →
      collectWeighted tconf w exps = .ok (survivors w exps tconf)
  | [], w, _ => by cases w <;> simp [collectWeighted, survivors]
  | dets :: rest, [], h => by simp at h
  | dets :: rest, wh :: wt, h => by
    have := collectWeighted_ok tconf rest wt (by simpa using h)
    simp only [collectWeighted, this, survivors, List.zip_cons_cons, List.map_cons,
      List.flatten_cons]

/-- Helper: the fallible expert loop raises `IndexError` as soon as the
gate-weight vector is exhausted before the experts are. -/
theorem collectWeighted_err (tconf : ℚ) :
    ∀ (exps : List (List RawDet)) (w : List ℚ), w.length < exps.length →
      collectWeighted tconf w exps = .error .indexError
  | [], w, h => by simp at h
  | dets :: rest, [], _ => rfl
  | dets :: rest, wh :: wt, h => by
    have := collectWeighted_err tconf rest wt (by simpa using h)
    simp only [collectWeighted, this]

/-- C3 counterexample: neither "failure" configuration raises anything —
with an empty expert pool (and an empty weight vector) `run_moe` returns
the empty detection set as a normal value, and with a gate-weight vector
longer than the expert list the extra weights are silently ignored and a
normal fused result is returned. No `ConfigurationError` exists in the
code. -/
theorem run_moe_exc_no_config_error :
    run_moe_exc [] [] 0.3 0.5 = .ok [] ∧
    run_moe_exc [0.8, 0.2] [[⟨⟨0, 0, 10, 10⟩, 1, 0⟩]] 0.3 0.5 =
      .ok [⟨⟨0, 0, 10, 10⟩, 0.8, 0⟩] := by
  constructor
  · with_unfolding_all rfl
  · with_unfolding_all rfl

/-- C3 (amended): `run_moe` performs no configuration validation. An empty
expert pool yields the empty detection set as a valid result (no error); a
gate-weight vector shorter than the expert list raises `IndexError` from
the expert loop, before any fusion; a vector at least as long as the expert
list (equal or longer) is accepted silently and the call reduces to the
pure pipeline. -/
theorem run_moe_exc_behavior (w : List ℚ) (exps : List (List RawDet)) (tconf tiou : ℚ) :
    (exps = [] → run_moe_exc w exps tconf tiou = .ok []) ∧
    (w.length < exps.length → run_moe_exc w exps tconf tiou = .error .indexError) ∧
    (exps.length ≤ w.length →
      run_moe_exc w exps tconf tiou = .ok (run_moe w exps tconf tiou)) := by
  refine ⟨?_, ?_, ?_⟩
  · rintro rfl
    rw [run_moe_exc, collectWeighted_ok tconf [] w (by simp)]
    cases w <;> simp [survivors]
  · intro h
    rw [run_moe_exc, collectWeighted_err tconf exps w h]
  · intro h
    rw [run_moe_exc, collectWeighted_ok tconf exps w h]
    rfl

/-- C3 (amended) witness: the three branches at concrete inputs — zero
experts, weight vector shorter than the expert list, and matching lengths. -/
theorem run_moe_exc_behavior_witness :
    run_moe_exc [0.5] [] 0.3 0.5 = .ok [] ∧
    run_moe_exc [] [[⟨⟨0, 0, 10, 10⟩, 1, 0⟩]] 0.3 0.5 = .error .indexError ∧
    run_moe_exc [1] [[⟨⟨0, 0, 10, 10⟩, 1, 0⟩]] 0.3 0.5 =
      .ok (run_moe [1] [[⟨⟨0, 0, 10, 10⟩, 1, 0⟩]] 0.3 0.5) :=
  ⟨(run_moe_exc_behavior [0.5] [] 0.3 0.5).1 rfl,
    (run_moe_exc_behavior [] [[⟨⟨0, 0, 10, 10⟩, 1, 0⟩]] 0.3 0.5).2.1 (by simp),
    (run_moe_exc_behavior [1] [[⟨⟨0, 0, 10, 10⟩, 1, 0⟩]] 0.3 0.5).2.2 (by simp)⟩

/-- C4: empty-input propagation — if every expert returns an empty
detection set, `run_moe` returns the empty detection set, and if every view
yields an empty single-view result, `run_moe_with_tta` returns the empty
detection set; both as normal values, not errors. -/
theorem empty_input_propagation :
    (∀ (w : List ℚ) (exps : List (List RawDet)) (tconf tiou : ℚ),
      (∀ e ∈ exps, e = []) → run_moe w exps tconf tiou = []) ∧
    (∀ (W H : ℚ) (viewDets : List (List Detection)) (tconf tiou : ℚ),
      (∀ v ∈ viewDets, v = []) → run_moe_with_tta W H viewDets tconf tiou = []) := by
  constructor
  · intro w exps tconf tiou h
    have hpool : survivors w exps tconf = [] := by
      rw [survivors, List.flatten_eq_nil_iff]
      intro l hl
      obtain ⟨p, hp, hpl⟩ := List.mem_map.mp hl
      rw [← hpl, h p.2 (List.of_mem_zip hp).2]
      rfl
    rw [run_moe, hpool]
    rfl
  · intro W H viewDets tconf tiou h
    have hc : viewDets.filter (fun v => !v.isEmpty) = [] := by
      rw [List.filter_eq_nil_iff]
      intro v hv
      rw [h v hv]
      simp
    rw [run_moe_with_tta, hc]
    rfl

/-- C4 witness: both propagation clauses at concrete inputs (two empty
experts; two empty views). -/
theorem empty_input_propagation_witness :
    run_moe [0.8, 0.2] [[], []] 0.3 0.5 = [] ∧
    run_moe_with_tta 640 480 [[], []] 0.3 0.5 = [] :=
  ⟨empty_input_propagation.1 [0.8, 0.2] [[], []] 0.3 0.5 (by simp),
    empty_input_propagation.2 640 480 [[], []] 0.3 0.5 (by simp)⟩

/-- C10: `run_moe` returns the empty list exactly when no detection
survives gate-weight scaling and thresholding; and whenever some detection
survives, the result contains a surviving detection of maximal scaled
confidence (greedy NMS always keeps the top-scoring pool element). -/
theorem run_moe_empty_iff_and_keeps_top (w : List ℚ) (exps : List (List RawDet))
    (tconf tiou : ℚ) :
    (run_moe w exps tconf tiou = [] ↔ survivors w exps tconf = []) ∧
    (survivors w exps tconf ≠ [] →
      ∃ d ∈ run_moe w exps tconf tiou, d ∈ survivors w exps tconf ∧
        ∀ e ∈ survivors w exps tconf, e.conf ≤ d.conf) := by
  by_cases hpool : survivors w exps tconf = []
  · constructor
    · rw [run_moe, hpool]
      simp
    · intro h
      exact absurd hpool h
  · have hrun : run_moe w exps tconf tiou = nms tiou (survivors w exps tconf) := by
      obtain ⟨d, rest, hcons⟩ := List.exists_cons_of_ne_nil hpool
      rw [run_moe, hcons]
      rfl
    constructor
    · rw [hrun]
      constructor
      · intro h
        exact absurd h (nms_ne_nil tiou _ hpool)
      · intro h
        exact absurd h hpool
    · intro _
      rw [hrun]
      exact nms_keeps_top tiou _ hpool

/-- C10 witness: with one expert of weight `1` returning one detection
above threshold, the pool is nonempty and the result keeps its
top-confidence element. -/
theorem run_moe_empty_iff_and_keeps_top_witness :
    survivors [1] [[⟨⟨0, 0, 10, 10⟩, 0.9, 0⟩]] 0.3 ≠ [] ∧
    ∃ d ∈ run_moe [1] [[⟨⟨0, 0, 10, 10⟩, 0.9, 0⟩]] 0.3 0.5,
      d ∈ survivors [1] [[⟨⟨0, 0, 10, 10⟩, 0.9, 0⟩]] 0.3 ∧
        ∀ e ∈ survivors [1] [[⟨⟨0, 0, 10, 10⟩, 0.9, 0⟩]] 0.3, e.conf ≤ d.conf := by
  have hpool : survivors [1] [[⟨⟨0, 0, 10, 10⟩, 0.9, 0⟩]] 0.3 =
      [⟨⟨0, 0, 10, 10⟩, 0.9 * 1, 0⟩] := by
    with_unfolding_all rfl
  have hne : survivors [1] [[⟨⟨0, 0, 10, 10⟩, 0.9, 0⟩]] 0.3 ≠ [] := by
    rw [hpool]
    exact List.cons_ne_nil _ _
  exact ⟨hne,
    (run_moe_empty_iff_and_keeps_top [1] [[⟨⟨0, 0, 10, 10⟩, 0.9, 0⟩]] 0.3 0.5).2 hne⟩

/-- C8: the per-view normalization of `run_moe_with_tta` divides
x-coordinates by the image width and y-coordinates by the image height, so
every detection whose box lies within the image (as the detectors
guarantee, every view having the source image's size) is mapped into the
unit square: each normalized coordinate lies in `[0, 1]`. -/
theorem tta_normalization_unit_square (W H : ℚ) (d : Detection)
    (hW : 0 < W) (hH : 0 < H)
    (hx1 : 0 ≤ d.box.x1) (hx1W : d.box.x1 ≤ W)
    (hy1 : 0 ≤ d.box.y1) (hy1H : d.box.y1 ≤ H)
    (hx2 : 0 ≤ d.box.x2) (hx2W : d.box.x2 ≤ W)
    (hy2 : 0 ≤ d.box.y2) (hy2H : d.box.y2 ≤ H) :
    (0 ≤ (normalizeDet W H d).box.x1 ∧ (normalizeDet W H d).box.x1 ≤ 1) ∧
    (0 ≤ (normalizeDet W H d).box.y1 ∧ (normalizeDet W H d).box.y1 ≤ 1) ∧
    (0 ≤ (normalizeDet W H d).box.x2 ∧ (normalizeDet W H d).box.x2 ≤ 1) ∧
    (0 ≤ (normalizeDet W H d).box.y2 ∧ (normalizeDet W H d).box.y2 ≤ 1) := by
  refine ⟨⟨?_, ?_⟩, ⟨?_, ?_⟩, ⟨?_, ?_⟩, ⟨?_, ?_⟩⟩
  · exact div_nonneg hx1 hW.le
  · exact (div_le_one hW).mpr hx1W
  · exact div_nonneg hy1 hH.le
  · exact (div_le_one hH).mpr hy1H
  · exact div_nonneg hx2 hW.le
  · exact (div_le_one hW).mpr hx2W
  · exact div_nonneg hy2 hH.le
  · exact (div_le_one hH).mpr hy2H

/-- C8 witness: a 640×480 image and a detection with box
`(10, 20, 50, 60)` normalize into the unit square. -/
theorem tta_normalization_unit_square_witness :
    ((0 : ℚ) < 640 ∧ (0 : ℚ) < 480) ∧
    ((0 ≤ (normalizeDet 640 480 ⟨⟨10, 20, 50, 60⟩, 0.9, 0⟩).box.x1 ∧
        (normalizeDet 640 480 ⟨⟨10, 20, 50, 60⟩, 0.9, 0⟩).box.x1 ≤ 1) ∧
      (0 ≤ (normalizeDet 640 480 ⟨⟨10, 20, 50, 60⟩, 0.9, 0⟩).box.y1 ∧
        (normalizeDet 640 480 ⟨⟨10, 20, 50, 60⟩, 0.9, 0⟩).box.y1 ≤ 1) ∧
      (0 ≤ (normalizeDet 640 480 ⟨⟨10, 20, 50, 60⟩, 0.9, 0⟩).box.x2 ∧
        (normalizeDet 640 480 ⟨⟨10, 20, 50, 60⟩, 0.9, 0⟩).box.x2 ≤ 1) ∧
      (0 ≤ (normalizeDet 640 480 ⟨⟨10, 20, 50, 60⟩, 0.9, 0⟩).box.y2 ∧
        (normalizeDet 640 480 ⟨⟨10, 20, 50, 60⟩, 0.9, 0⟩).box.y2 ≤ 1)) :=
  ⟨⟨by norm_num, by norm_num⟩,
    tta_normalization_unit_square 640 480 ⟨⟨10, 20, 50, 60⟩, 0.9, 0⟩
      (by norm_num) (by norm_num) (by norm_num) (by norm_num) (by norm_num)
      (by norm_num) (by norm_num) (by norm_num) (by norm_num) (by norm_num)⟩

/-- Helper: the WBF fused confidence is jointly monotone in the cluster
mean and the cluster size. -/
theorem fusedConf_mono (c c' : List Detection) (V : ℕ) (hc : c ≠ [])
    (hm0 : 0 ≤ (c.map (·.conf)).sum / c.length)
    (hmm : (c.map (·.conf)).sum / c.length ≤ (c'.map (·.conf)).sum / c'.length)
    (hkl : c.length ≤ c'.length) :
    fusedConf c V ≤ fusedConf c' V := by
  have hk : 0 < c.length := List.length_pos.mpr hc
  have hk' : 0 < c'.length := lt_of_lt_of_le hk hkl
  rcases Nat.eq_zero_or_pos V with hV | hV
  · subst hV
    simp [fusedConf]
  · rw [fusedConf, fusedConf, if_neg (by omega), if_neg (by omega)]
    have hmin : ((min c.length V : ℕ) : ℚ) ≤ ((min c'.length V : ℕ) : ℚ) := by
      exact_mod_cast min_le_min hkl (le_refl V)
    have h1 : (c.map (·.conf)).sum / c.length * ((min c.length V : ℕ) : ℚ) ≤
        (c'.map (·.conf)).sum / c'.length * ((min c'.length V : ℕ) : ℚ) :=
      mul_le_mul hmm hmin (by positivity) (le_trans hm0 hmm)
    have hVQ : (0 : ℚ) < (V : ℚ) := by exact_mod_cast hV
    exact div_le_div_of_nonneg_right h1 hVQ.le

/-- C9: spec-modelled WBF confidence policy
`mean(confidences) * min(cluster_size, num_views) / num_views` — the fused
confidence is monotonically non-decreasing in the cluster size and in the
mean member confidence; in particular, appending another in-cluster
detection whose confidence is at least the current cluster mean never
decreases the cluster's fused confidence. -/
theorem wbf_fused_confidence_monotone :
    (∀ (c c' : List Detection) (V : ℕ),
      c ≠ [] →
      0 ≤ (c.map (·.conf)).sum / c.length →
      (c.map (·.conf)).sum / c.length ≤ (c'.map (·.conf)).sum / c'.length →
      c.length ≤ c'.length →
      fusedConf c V ≤ fusedConf c' V) ∧
    (∀ (c : List Detection) (d : Detection) (V : ℕ),
      c ≠ [] → (∀ e ∈ c, 0 ≤ e.conf) →
      (c.map (·.conf)).sum / c.length ≤ d.conf →
      fusedConf c V ≤ fusedConf (c ++ [d]) V) := by
  refine ⟨fusedConf_mono, ?_⟩
  intro c d V hc hnn hmean
  have hk : 0 < c.length := List.length_pos.mpr hc
  have hkQ : (0 : ℚ) < (c.length : ℚ) := by exact_mod_cast hk
  have hsum0 : 0 ≤ (c.map (·.conf)).sum :=
    List.sum_nonneg (by
      intro x hx
      obtain ⟨e, he, rfl⟩ := List.mem_map.mp hx
      exact hnn e he)
  have hm0 : 0 ≤ (c.map (·.conf)).sum / c.length := div_nonneg hsum0 hkQ.le
  have hsum' : ((c ++ [d]).map (·.conf)).sum = (c.map (·.conf)).sum + d.conf := by
    simp
  have hlen' : ((c ++ [d]).length : ℚ) = (c.length : ℚ) + 1 := by
    rw [List.length_append]
    push_cast
    norm_num
  have hmean' : (c.map (·.conf)).sum / c.length ≤
      ((c ++ [d]).map (·.conf)).sum / (c ++ [d]).length := by
    rw [hsum', hlen', div_le_div_iff₀ hkQ (by linarith)]
    have hS : (c.map (·.conf)).sum ≤ d.conf * c.length :=
      (div_le_iff₀ hkQ).mp hmean
    nlinarith [hS]
  exact fusedConf_mono c (c ++ [d]) V hc hm0 hmean' (by simp)

/-- C9 witness: a two-member cluster with confidences `0.6` and `0.8` and a
new member at confidence `0.9` (above the mean `0.7`), with 4 views. -/
theorem wbf_fused_confidence_monotone_witness :
    ([⟨⟨0, 0, 1, 1⟩, 0.6, 0⟩, ⟨⟨0, 0, 1, 1⟩, 0.8, 0⟩] : List Detection) ≠ [] ∧
    fusedConf [⟨⟨0, 0, 1, 1⟩, 0.6, 0⟩, ⟨⟨0, 0, 1, 1⟩, 0.8, 0⟩] 4 ≤
      fusedConf ([⟨⟨0, 0, 1, 1⟩, 0.6, 0⟩, ⟨⟨0, 0, 1, 1⟩, 0.8, 0⟩] ++
        [⟨⟨0, 0, 1, 1⟩, 0.9, 0⟩]) 4 :=
  ⟨List.cons_ne_nil _ _,
    wbf_fused_confidence_monotone.2
      [⟨⟨0, 0, 1, 1⟩, 0.6, 0⟩, ⟨⟨0, 0, 1, 1⟩, 0.8, 0⟩] ⟨⟨0, 0, 1, 1⟩, 0.9, 0⟩ 4
      (List.cons_ne_nil _ _)
      (by
        intro e he
        rcases List.mem_cons.mp he with rfl | he
        · norm_num
        · rcases List.mem_cons.mp he with rfl | he
          · norm_num
          · simp at he)
      (by norm_num)⟩

end MoE
